import Mathlib

/-!
Verification of the locally authored text-processing logic of a podcast quiz
generator (`main.py`).  Python strings are modelled as lists of characters
(`Str := List Char`), with ASCII semantics for `str.lower`, `\w` and
whitespace.  Each Python helper is translated into an executable Lean
function; the claims about them are then proved below the definitions.
-/

namespace PodQuiz

/-- A Python string, modelled as its list of characters. -/
abbrev Str := List Char

/-- One character of Python `str.lower` (ASCII range): `A`..`Z` (codes 65..90)
map to `a`..`z` by adding 32, everything else is unchanged. -/
def lowerChar (c : Char) : Char :=
  if 65 ≤ c.toNat ∧ c.toNat ≤ 90 then Char.ofNat (c.toNat + 32) else c

/-- Python `text.lower()` from `preprocess_text` (`main.py` line 65). -/
def pyLower (s : Str) : Str := s.map lowerChar

/-- A `\w` character of the regex in `preprocess_text`: letter, digit or
underscore (ASCII model). -/
def isWordChar (c : Char) : Bool := c.isAlphanum || c == '_'

/-- The regex substitution `re.sub(r'[^\w\s]', '', s)` from `preprocess_text` (`main.py` line 65):
delete every character that is neither a word character nor whitespace. -/
def removeSpecial (s : Str) : Str := s.filter (fun c => isWordChar c || c.isWhitespace)

/-- Python `s.split()` (no argument): split on maximal whitespace runs and
drop the empty pieces (`main.py` line 67 and line 77). -/
def pySplitWs (s : Str) : List Str :=
  (s.splitOnP Char.isWhitespace).filter (fun w => !w.isEmpty)

/-- Python `' '.join(ws)`: interleave a single space between the pieces. -/
def joinWords : List Str → Str
  | [] => []
  | [w] => w
  | w :: v :: ws => w ++ ' ' :: joinWords (v :: ws)

/-- The function `preprocess_text` (`main.py` lines 62-68):
`' '.join(re.sub(r'[^\w\s]', '', text.lower()).split())`. -/
def preprocess_text (s : Str) : Str := joinWords (pySplitWs (removeSpecial (pyLower s)))

/-- The stop-word set of `extract_key_topics` (`main.py` line 73). -/
def stop_words : List Str :=
  [ "the".data, "a".data, "an".data, "and".data, "or".data, "but".data,
    "in".data, "on".data, "at".data, "to".data, "for".data, "is".data,
    "are".data, "was".data, "were".data]

/-- The filtered word list of `extract_key_topics` (`main.py` lines 76-80):
the words of the preprocessed text with stop words and words of length
at most 3 removed. -/
def topicWords (t : Str) : List Str :=
  (pySplitWs (preprocess_text t)).filter (fun w => decide (w ∉ stop_words) && decide (3 < w.length))

/-- Index of the first occurrence of a word in a word list (0 when absent);
used to state the tie-breaking order of `Counter.most_common`. -/
def firstIdx : List Str → Str → Nat
  | [], _ => 0
  | v :: vs, w => if v = w then 0 else firstIdx vs w + 1

/-- The keys of `Counter(words)` in first-occurrence order: keep each word the
first time it appears, skipping words already seen. -/
def dedupFirstAux (seen : List Str) : List Str → List Str
  | [] => []
  | w :: ws => if w ∈ seen then dedupFirstAux seen ws else w :: dedupFirstAux (w :: seen) ws

/-- The keys of `Counter(words)` in first-occurrence order. -/
def dedupFirst (l : List Str) : List Str := dedupFirstAux [] l

/-- Stable insertion for a descending sort by count: a new word goes after
every word of count at least its own, so equal counts keep insertion order. -/
def insertDesc (cnt : Str → Nat) (w : Str) : List Str → List Str
  | [] => [w]
  | v :: vs => if cnt w ≤ cnt v then v :: insertDesc cnt w vs else w :: v :: vs

/-- Stable descending sort by count, modelling `Counter.most_common`
(documented as `sorted(iterable, key=count, reverse=True)`, which is stable:
ties keep first-occurrence order). -/
def sortDesc (cnt : Str → Nat) (l : List Str) : List Str :=
  l.foldl (fun acc w => insertDesc cnt w acc) []

/-- The count `Counter(words)[w]`: number of occurrences of `w` in the filtered word
list of the transcript. -/
def wordCount (t : Str) (w : Str) : Nat := (topicWords t).count w

/-- The function `extract_key_topics` (`main.py` lines 70-86): the `num_topics` most
frequent filtered words, most frequent first, ties by first occurrence. -/
def extract_key_topics (t : Str) (num_topics : Nat) : List Str :=
  (sortDesc (wordCount t) (dedupFirst (topicWords t))).take num_topics

/-- A quiz question dictionary: the code always builds records with exactly
the four keys `question`, `type`, `answer`, `context`. -/
structure Question where
  question : Str
  type : Str
  answer : Str
  context : Str
deriving DecidableEq

/-- The ASCII apostrophe character (code 39) used inside the f-string
templates of `generate_questions_from_text`. -/
def sq : Char := Char.ofNat 39

/-- Python `s.strip()`: remove leading and trailing whitespace. -/
def pyStrip (s : Str) : Str :=
  ((s.dropWhile Char.isWhitespace).reverse.dropWhile Char.isWhitespace).reverse

/-- The sentence list `[s.strip() for s in transcript.split('.') if len(s.strip()) > 20]`
(`main.py` line 100). -/
def sentencesOf (t : Str) : List Str :=
  ((t.splitOn '.').map pyStrip).filter (fun s => decide (20 < s.length))

/-- The paragraph list `[p.strip() for p in transcript.split('\n') if p.strip()]`
(`main.py` line 99). -/
def paragraphsOf (t : Str) : List Str :=
  ((t.splitOn '\n').map pyStrip).filter (fun p => !p.isEmpty)

/-- Python `' and '.join(ws)` (`main.py` line 111). -/
def joinAnd (ws : List Str) : Str := List.intercalate (" and ".data) ws

/-- The f-string `f"What is the main topic discussed that relates to '{m}'?"`. -/
def mainQText (m : Str) : Str :=
  "What is the main topic discussed that relates to ".data ++ [sq] ++ m ++ [sq, '?']

/-- The main-topic question (`main.py` lines 106-113); `kt` is the key-topic
list and `m` its head. -/
def mkMainQ (kt : List Str) (m : Str) : Question :=
  { question := mainQText m
    type := "short_answer".data
    answer := "The main topic discusses ".data ++ m ++ " in the context of ".data ++
      joinAnd ((kt.drop 1).take 2)
    context := "main topic".data }

/-- The f-string
`f"True or False: The following statement is discussed: '{s[:100]}...'"`. -/
def tfQText (s : Str) : Str :=
  "True or False: The following statement is discussed: ".data ++ [sq] ++
    s.take 100 ++ "...".data ++ [sq]

/-- The true/false question (`main.py` lines 116-123); `s` is `sentences[1]`. -/
def mkTFQ (s : Str) : Question :=
  { question := tfQText s
    type := "true_false".data
    answer := "True".data
    context := "concept verification".data }

/-- The f-string `f"What key point is made about {tp}?"`. -/
def keyQText (tp : Str) : Str := "What key point is made about ".data ++ tp ++ ['?']

/-- The detailed question for a topic (`main.py` lines 129-134); `r` is the
first relevant sentence. -/
def mkKeyPointQ (tp r : Str) : Question :=
  { question := keyQText tp
    type := "short_answer".data
    answer := r.take 100 ++ "...".data
    context := "specific detail".data }

/-- The constant summary question text (`main.py` line 139). -/
def summaryQText : Str :=
  "Which of the following best summarizes a key takeaway from the discussion?".data

/-- The summary question (`main.py` lines 137-143); `p` is `paragraphs[0]`. -/
def mkSummaryQ (p : Str) : Question :=
  { question := summaryQText
    type := "multiple_choice".data
    answer := p.take 100 ++ "...".data
    context := "summary".data }

/-- The f-string
`f"What is being discussed in this segment: '{s[:50]}...'?"`. -/
def segQText (s : Str) : Str :=
  "What is being discussed in this segment: ".data ++ [sq] ++ s.take 50 ++
    "...".data ++ [sq, '?']

/-- The answer of the padding question (`main.py` line 150): by Python
operator precedence the conditional covers the whole string expression. -/
def segAnswer (kt : List Str) : Str :=
  match kt with
  | t0 :: _ => "This segment discusses ".data ++ t0
  | [] => "key concepts from the transcript".data

/-- A padding question of the final while loop (`main.py` lines 146-152). -/
def mkSegQ (kt : List Str) (s : Str) : Question :=
  { question := segQText s
    type := "short_answer".data
    answer := segAnswer kt
    context := "general understanding".data }

/-- Whether `n` is a leading piece of `h` (character-by-character match). -/
def headMatch : Str → Str → Bool
  | [], _ => true
  | _ :: _, [] => false
  | c :: cs, d :: ds => c == d && headMatch cs ds

/-- Python `n in h` on strings: `n` occurs contiguously inside `h`. -/
def isSubstr (n : Str) : Str → Bool
  | [] => n.isEmpty
  | c :: t => headMatch n (c :: t) || isSubstr n t

/-- Section 1 of `generate_questions_from_text`: the main-topic question,
present when the key-topic list is non-empty. -/
def mainQs (kt : List Str) : List Question :=
  match kt with
  | [] => []
  | m :: _ => [mkMainQ kt m]

/-- Section 2: the true/false question, present when there are at least two
sentences; it uses `sentences[1]`. -/
def tfQs (ss : List Str) : List Question :=
  match ss with
  | _ :: s1 :: _ => [mkTFQ s1]
  | _ => []

/-- The filtered list `[s for s in sentences if topic in s.lower()]` (`main.py` line 127). -/
def relevantFor (ss : List Str) (tp : Str) : List Str :=
  ss.filter (fun s => isSubstr tp (pyLower s))

/-- Section 3, body of the `for topic in key_topics[1:3]` loop. -/
def detailQFor (ss : List Str) (tp : Str) : List Question :=
  match relevantFor ss tp with
  | [] => []
  | r :: _ => [mkKeyPointQ tp r]

/-- Section 3: one optional question per topic among `key_topics[1:3]`. -/
def detailQs (ss : List Str) (kt : List Str) : List Question :=
  (((kt.drop 1).take 2).map (detailQFor ss)).flatten

/-- Section 4: the summary question, present when there is a paragraph. -/
def summaryQs (ps : List Str) : List Question :=
  match ps with
  | [] => []
  | p :: _ => [mkSummaryQ p]

/-- The final `while len(questions) < 3 and sentences` loop: each iteration
pops the last remaining sentence and appends one padding question, so it is
the traversal of the reversed sentence list below. -/
def padAux (kt : List Str) (qs : List Question) : List Str → List Question
  | [] => qs
  | s :: rest => if qs.length < 3 then padAux kt (qs ++ [mkSegQ kt s]) rest else qs

/-- Body of `generate_questions_from_text` after the emptiness check
(`main.py` lines 96-154). -/
def buildQuestions (t : Str) : List Question :=
  let ss := sentencesOf t
  let kt := extract_key_topics t 3
  let qs := mainQs kt ++ tfQs ss ++ detailQs ss kt ++ summaryQs (paragraphsOf t)
  padAux kt qs ss.reverse

/-- The function `generate_questions_from_text` on a string transcript (`main.py`
lines 88-154): an empty transcript is falsy and returns `[]`. -/
def generate_questions_from_text (t : Str) : List Question :=
  if t.isEmpty then [] else buildQuestions t

/-- The function `generate_questions_from_text` on a possibly-`None` transcript: `None`
is falsy, so the `if not transcript` guard returns `[]`. -/
def generate_questions_from_any : Option Str → List Question
  | none => []
  | some t => generate_questions_from_text t

/-- One polling response of the transcription service: its `status` field
and its `text` field. -/
structure TranscriptResponse where
  status : Str
  text : Str
deriving DecidableEq

/-- The polling loop of `transcribe_audio` (`main.py` lines 48-57) run
against a sequence of service responses: `some (some txt)` models
`return status_response.json()["text"]`, `some none` models `return None`
on a failed status, and `none` means the loop consumed every response
without returning. -/
def pollStatuses : List TranscriptResponse → Option (Option Str)
  | [] => none
  | r :: rs =>
    if r.status = "completed".data then some (some r.text)
    else if r.status = "failed".data then some none
    else pollStatuses rs

end PodQuiz

namespace PodQuiz

/-! ### Character-level lemmas -/

theorem charToNat_ofNat {n : Nat} (h : n < 55296) : (Char.ofNat n).toNat = n := by
  have hv : n.isValidChar := Or.inl h
  simp [Char.ofNat, hv, Char.ofNatAux, Char.toNat, UInt32.toNat]

theorem lowerChar_idem (c : Char) : lowerChar (lowerChar c) = lowerChar c := by
  unfold lowerChar
  by_cases h : 65 ≤ c.toNat ∧ c.toNat ≤ 90
  · rw [if_pos h, if_neg]
    rw [charToNat_ofNat (by omega)]
    omega
  · rw [if_neg h, if_neg h]

theorem whitespace_not_word {c : Char} (h : c.isWhitespace = true) : isWordChar c = false := by
  simp only [Char.isWhitespace, Bool.or_eq_true, decide_eq_true_eq] at h
  rcases h with ((h | h) | h) | h <;> subst h <;> decide

/-! ### `splitOnP` pieces: their characters and their flattening -/

theorem mem_splitOnP {α : Type*} (p : α → Bool) (l : List α) :
    ∀ w ∈ l.splitOnP p, ∀ c ∈ w, c ∈ l ∧ p c = false := by
  induction l with
  | nil =>
    intro w hw c hc
    simp only [List.splitOnP_nil, List.mem_singleton] at hw
    subst hw
    simp at hc
  | cons a l ih =>
    intro w hw c hc
    rw [List.splitOnP_cons] at hw
    by_cases hpa : p a
    · rw [if_pos hpa] at hw
      rcases List.mem_cons.mp hw with hw | hw
      · subst hw; simp at hc
      · obtain ⟨hcl, hpc⟩ := ih w hw c hc
        exact ⟨List.mem_cons_of_mem _ hcl, hpc⟩
    · rw [if_neg hpa] at hw
      cases hs : l.splitOnP p with
      | nil => exact absurd hs (List.splitOnP_ne_nil p l)
      | cons h t =>
        rw [hs, List.modifyHead_cons] at hw
        rcases List.mem_cons.mp hw with hw | hw
        · subst hw
          rcases List.mem_cons.mp hc with hc | hc
          · subst hc
            exact ⟨List.mem_cons_self _ _, by simpa using hpa⟩
          · have hmem : h ∈ l.splitOnP p := by rw [hs]; exact List.mem_cons_self h t
            obtain ⟨hcl, hpc⟩ := ih h hmem c hc
            exact ⟨List.mem_cons_of_mem _ hcl, hpc⟩
        · have hmem : w ∈ l.splitOnP p := by rw [hs]; exact List.mem_cons_of_mem h hw
          obtain ⟨hcl, hpc⟩ := ih w hmem c hc
          exact ⟨List.mem_cons_of_mem _ hcl, hpc⟩

theorem flatten_splitOnP {α : Type*} (p : α → Bool) (l : List α) :
    (l.splitOnP p).flatten = l.filter (fun c => !p c) := by
  induction l with
  | nil => simp
  | cons a l ih =>
    rw [List.splitOnP_cons]
    by_cases hpa : p a
    · rw [if_pos hpa]
      simp [List.filter_cons, hpa, ih]
    · rw [if_neg hpa]
      cases hs : l.splitOnP p with
      | nil => exact absurd hs (List.splitOnP_ne_nil p l)
      | cons h t =>
        rw [hs] at ih
        rw [List.modifyHead_cons]
        have hpa' : p a = false := by simpa using hpa
        simp [List.filter_cons, hpa', List.flatten_cons, ← ih]

theorem flatten_filter_nonempty {α : Type*} (L : List (List α)) :
    (L.filter (fun w => !w.isEmpty)).flatten = L.flatten := by
  induction L with
  | nil => rfl
  | cons w L ih =>
    cases w with
    | nil => simpa using ih
    | cons c w => simp [List.filter_cons, ih]

/-! ### `pySplitWs` and `joinWords` -/

theorem mem_pySplitWs {s : Str} {w : Str} (hw : w ∈ pySplitWs s) :
    w ≠ [] ∧ ∀ c ∈ w, c ∈ s ∧ c.isWhitespace = false := by
  unfold pySplitWs at hw
  obtain ⟨hmem, hne⟩ := List.mem_filter.mp hw
  exact ⟨by simpa using hne, fun c hc => mem_splitOnP _ s w hmem c hc⟩

theorem pySplitWs_flatten (s : Str) :
    (pySplitWs s).flatten = s.filter (fun c => !c.isWhitespace) := by
  unfold pySplitWs
  rw [flatten_filter_nonempty, flatten_splitOnP]

theorem joinWords_ne_nil {v : Str} (hv : v ≠ []) (ws : List Str) : joinWords (v :: ws) ≠ [] := by
  cases ws with
  | nil => simpa [joinWords] using hv
  | cons w ws => simp [joinWords]

theorem mem_joinWords {ws : List Str} {c : Char} (hc : c ∈ joinWords ws) :
    c = ' ' ∨ ∃ w ∈ ws, c ∈ w := by
  induction ws with
  | nil => simp [joinWords] at hc
  | cons w tail ih =>
    cases tail with
    | nil =>
      right
      exact ⟨w, by simp, by simpa [joinWords] using hc⟩
    | cons v ws' =>
      simp only [joinWords] at hc
      rcases List.mem_append.mp hc with h | h
      · right; exact ⟨w, by simp, h⟩
      · rcases List.mem_cons.mp h with h | h
        · left; exact h
        · rcases ih h with h | ⟨u, hu, hcu⟩
          · left; exact h
          · right; exact ⟨u, List.mem_cons_of_mem _ hu, hcu⟩

theorem pySplitWs_joinWords {ws : List Str}
    (h : ∀ w ∈ ws, w ≠ [] ∧ ∀ c ∈ w, c.isWhitespace = false) :
    pySplitWs (joinWords ws) = ws := by
  induction ws with
  | nil => rfl
  | cons w tail ih =>
    obtain ⟨hwne, hwc⟩ := h w (List.mem_cons_self w tail)
    cases tail with
    | nil =>
      show pySplitWs w = [w]
      unfold pySplitWs
      rw [List.splitOnP_eq_single _ _ (fun c hc => by simp [hwc c hc])]
      simp [hwne]
    | cons v ws' =>
      have ih' := ih (fun u hu => h u (List.mem_cons_of_mem _ hu))
      show pySplitWs (w ++ ' ' :: joinWords (v :: ws')) = w :: v :: ws'
      unfold pySplitWs at ih' ⊢
      rw [List.splitOnP_first _ _ (fun c hc => by simp [hwc c hc]) ' ' (by decide)]
      rw [List.filter_cons]
      rw [if_pos (show (!w.isEmpty) = true by simpa using hwne)]
      rw [ih']

theorem joinWords_head {ws : List Str}
    (h : ∀ w ∈ ws, w ≠ [] ∧ ∀ c ∈ w, c.isWhitespace = false) :
    ∀ y, (joinWords ws).head? = some y → y.isWhitespace = false := by
  cases ws with
  | nil => intro y hy; simp [joinWords] at hy
  | cons w tail =>
    obtain ⟨hne, hwc⟩ := h w (List.mem_cons_self _ _)
    cases w with
    | nil => exact absurd rfl hne
    | cons c cs =>
      intro y hy
      cases tail with
      | nil =>
        simp only [joinWords, List.head?_cons, Option.some.injEq] at hy
        exact hy ▸ hwc c (by simp)
      | cons v ws' =>
        simp only [joinWords, List.cons_append, List.head?_cons, Option.some.injEq] at hy
        exact hy ▸ hwc c (by simp)

theorem joinWords_getLast {ws : List Str}
    (h : ∀ w ∈ ws, w ≠ [] ∧ ∀ c ∈ w, c.isWhitespace = false) :
    ∀ y, (joinWords ws).getLast? = some y → y.isWhitespace = false := by
  induction ws with
  | nil => intro y hy; simp [joinWords] at hy
  | cons w tail ih =>
    obtain ⟨hne, hwc⟩ := h w (List.mem_cons_self _ _)
    cases tail with
    | nil =>
      intro y hy
      have : y ∈ w := List.mem_of_mem_getLast? (by simpa [joinWords] using hy)
      exact hwc y this
    | cons v ws' =>
      intro y hy
      have ihv := ih (fun u hu => h u (List.mem_cons_of_mem _ hu))
      have hnn : joinWords (v :: ws') ≠ [] :=
        joinWords_ne_nil (h v (by simp)).1 ws'
      simp only [joinWords] at hy
      rw [List.getLast?_append] at hy
      cases hX : (joinWords (v :: ws')).getLast? with
      | none => exact absurd (List.getLast?_eq_none_iff.mp hX) hnn
      | some z =>
        have hlast : (' ' :: joinWords (v :: ws')).getLast? = some z := by
          rw [show (' ' :: joinWords (v :: ws')) = [' '] ++ joinWords (v :: ws') from rfl,
            List.getLast?_append, hX]
          rfl
        rw [hlast] at hy
        simp only [Option.or_some, Option.some.injEq] at hy
        subst hy
        exact ihv z hX

theorem joinWords_chain {ws : List Str}
    (h : ∀ w ∈ ws, w ≠ [] ∧ ∀ c ∈ w, c.isWhitespace = false) :
    (joinWords ws).Chain' (fun a b => a ≠ ' ' ∨ b ≠ ' ') := by
  induction ws with
  | nil => simp [joinWords]
  | cons w tail ih =>
    obtain ⟨hne, hwc⟩ := h w (List.mem_cons_self _ _)
    have hwchain : w.Chain' (fun a b => a ≠ ' ' ∨ b ≠ ' ') := by
      apply List.Pairwise.chain'
      apply List.pairwise_of_forall_mem_list
      intro a ha b hb
      left
      intro hsp
      subst hsp
      exact absurd (hwc _ ha) (by simp)
    cases tail with
    | nil => simpa [joinWords] using hwchain
    | cons v ws' =>
      have ihv := ih (fun u hu => h u (List.mem_cons_of_mem _ hu))
      have hws : ∀ u ∈ v :: ws', u ≠ [] ∧ ∀ c ∈ u, c.isWhitespace = false :=
        fun u hu => h u (List.mem_cons_of_mem _ hu)
      simp only [joinWords]
      rw [List.chain'_append]
      refine ⟨hwchain, ?_, ?_⟩
      · rw [List.chain'_cons']
        refine ⟨?_, ihv⟩
        intro y hy
        right
        intro hsp
        subst hsp
        exact absurd (joinWords_head hws ' ' hy) (by simp)
      · intro x hx y hy
        left
        intro hsp
        subst hsp
        have : ' ' ∈ w := List.mem_of_mem_getLast? hx
        exact absurd (hwc _ this) (by simp)

theorem joinWords_filter {ws : List Str}
    (h : ∀ w ∈ ws, w ≠ [] ∧ ∀ c ∈ w, c.isWhitespace = false) :
    (joinWords ws).filter (fun c => !c.isWhitespace) = ws.flatten := by
  induction ws with
  | nil => rfl
  | cons w tail ih =>
    obtain ⟨hwne, hwc⟩ := h w (List.mem_cons_self _ _)
    have hwfull : w.filter (fun c => !c.isWhitespace) = w :=
      List.filter_eq_self.mpr fun c hc => by simp [hwc c hc]
    cases tail with
    | nil =>
      show w.filter _ = w ++ []
      rw [hwfull, List.append_nil]
    | cons v ws' =>
      have ih' := ih (fun u hu => h u (List.mem_cons_of_mem _ hu))
      show (w ++ ' ' :: joinWords (v :: ws')).filter _ = w ++ (v :: ws').flatten
      rw [List.filter_append, hwfull, List.filter_cons]
      rw [if_neg (by decide)]
      rw [ih']

theorem map_eq_self {α : Type*} {f : α → α} :
    ∀ {l : List α}, (∀ a ∈ l, f a = a) → l.map f = l := by
  intro l h
  induction l with
  | nil => rfl
  | cons a l ih =>
    simp only [List.map_cons, h a (by simp), List.cons.injEq, true_and]
    exact ih fun b hb => h b (List.mem_cons_of_mem _ hb)

theorem preprocess_words (s : Str) :
    ∀ w ∈ pySplitWs (removeSpecial (pyLower s)), w ≠ [] ∧ ∀ c ∈ w, c.isWhitespace = false := by
  intro w hw
  obtain ⟨hne, hall⟩ := mem_pySplitWs hw
  exact ⟨hne, fun c hc => (hall c hc).2⟩

theorem preprocess_chars {s : Str} {c : Char} (hc : c ∈ preprocess_text s) :
    lowerChar c = c ∧ (isWordChar c = true ∨ c = ' ') := by
  unfold preprocess_text at hc
  rcases mem_joinWords hc with h | ⟨w, hw, hcw⟩
  · subst h; exact ⟨by decide, Or.inr rfl⟩
  · obtain ⟨hne, hall⟩ := mem_pySplitWs hw
    obtain ⟨hmem, hnw⟩ := hall c hcw
    obtain ⟨hlow, hword⟩ := List.mem_filter.mp hmem
    have hwc : isWordChar c = true := by
      rcases (show isWordChar c = true ∨ c.isWhitespace = true by simpa using hword) with h | h
      · exact h
      · rw [hnw] at h; exact absurd h (by simp)
    obtain ⟨c0, _, hc0⟩ := List.mem_map.mp hlow
    exact ⟨by rw [← hc0, lowerChar_idem], Or.inl hwc⟩

theorem pyLower_preprocess (s : Str) : pyLower (preprocess_text s) = preprocess_text s :=
  map_eq_self fun _ hc => (preprocess_chars hc).1

theorem removeSpecial_preprocess (s : Str) :
    removeSpecial (preprocess_text s) = preprocess_text s := by
  apply List.filter_eq_self.mpr
  intro c hc
  rcases (preprocess_chars hc).2 with h | h
  · simp [h]
  · subst h; decide

/-- C7: `preprocess_text` lowercases its input (every output character is
fixed by `lowerChar`), keeps exactly the word characters of the lowercased
input in order (the non-space characters of the output are the word
characters of `pyLower s`, and every output character is a word character or
a single space), has no leading or trailing space, never has two adjacent
spaces, replaces every maximal whitespace run by a single separating space
(the whitespace-delimited words of the output are exactly the
whitespace-delimited words of the cleaned lowercased input), and is
idempotent. -/
theorem preprocess_text_correct (s : Str) :
    (∀ c ∈ preprocess_text s, (isWordChar c = true ∨ c = ' ') ∧ lowerChar c = c) ∧
    (preprocess_text s).filter (fun c => !c.isWhitespace) = (pyLower s).filter isWordChar ∧
    (∀ y, (preprocess_text s).head? = some y → y ≠ ' ') ∧
    (∀ y, (preprocess_text s).getLast? = some y → y ≠ ' ') ∧
    (preprocess_text s).Chain' (fun a b => a ≠ ' ' ∨ b ≠ ' ') ∧
    pySplitWs (preprocess_text s) = pySplitWs (removeSpecial (pyLower s)) ∧
    preprocess_text (preprocess_text s) = preprocess_text s := by
  refine ⟨?_, ?_, ?_, ?_, ?_, ?_, ?_⟩
  · intro c hc
    exact ⟨(preprocess_chars hc).2, (preprocess_chars hc).1⟩
  · show (joinWords (pySplitWs (removeSpecial (pyLower s)))).filter _ = _
    rw [joinWords_filter (preprocess_words s), pySplitWs_flatten]
    unfold removeSpecial
    rw [List.filter_filter]
    apply List.filter_congr
    intro c _
    cases hw : c.isWhitespace
    · simp [hw]
    · simp [hw, whitespace_not_word hw]
  · intro y hy hsp
    subst hsp
    exact absurd (joinWords_head (preprocess_words s) ' ' hy) (by simp)
  · intro y hy hsp
    subst hsp
    exact absurd (joinWords_getLast (preprocess_words s) ' ' hy) (by simp)
  · exact joinWords_chain (preprocess_words s)
  · exact pySplitWs_joinWords (preprocess_words s)
  · have h1 := pyLower_preprocess s
    have h2 := removeSpecial_preprocess s
    show joinWords (pySplitWs (removeSpecial (pyLower (preprocess_text s)))) = _
    rw [h1, h2]
    show joinWords (pySplitWs (joinWords (pySplitWs (removeSpecial (pyLower s))))) = _
    rw [pySplitWs_joinWords (preprocess_words s)]
    rfl

/-! ### `extract_key_topics`: dedup, stable sort, and the ranking order -/

theorem firstIdx_cons_ne {v w : Str} (h : v ≠ w) (vs : List Str) :
    firstIdx (v :: vs) w = firstIdx vs w + 1 := by
  simp [firstIdx, h]

theorem mem_dedupFirstAux :
    ∀ (l seen : List Str) (x : Str), x ∈ dedupFirstAux seen l ↔ x ∈ l ∧ x ∉ seen := by
  intro l
  induction l with
  | nil => intro seen x; simp [dedupFirstAux]
  | cons w ws ih =>
    intro seen x
    by_cases hw : w ∈ seen
    · rw [show dedupFirstAux seen (w :: ws) = dedupFirstAux seen ws from by
        simp [dedupFirstAux, hw]]
      rw [ih]
      constructor
      · rintro ⟨h1, h2⟩; exact ⟨List.mem_cons_of_mem _ h1, h2⟩
      · rintro ⟨h1, h2⟩
        rcases List.mem_cons.mp h1 with rfl | h1
        · exact absurd hw h2
        · exact ⟨h1, h2⟩
    · rw [show dedupFirstAux seen (w :: ws) = w :: dedupFirstAux (w :: seen) ws from by
        simp [dedupFirstAux, hw]]
      constructor
      · intro hx
        rcases List.mem_cons.mp hx with rfl | hx
        · exact ⟨List.mem_cons_self _ _, hw⟩
        · obtain ⟨h1, h2⟩ := (ih _ _).mp hx
          exact ⟨List.mem_cons_of_mem _ h1, fun hs => h2 (List.mem_cons_of_mem _ hs)⟩
      · rintro ⟨h1, h2⟩
        by_cases hxw : x = w
        · subst hxw; exact List.mem_cons_self _ _
        · rcases List.mem_cons.mp h1 with rfl | h1
          · exact absurd rfl hxw
          · refine List.mem_cons_of_mem _ ((ih _ _).mpr ⟨h1, ?_⟩)
            intro hs
            rcases List.mem_cons.mp hs with h | h
            · exact hxw h
            · exact h2 h

theorem dedupFirstAux_pairwise :
    ∀ (l seen : List Str),
      (dedupFirstAux seen l).Pairwise (fun a b => firstIdx l a < firstIdx l b) := by
  intro l
  induction l with
  | nil => intro seen; simp [dedupFirstAux]
  | cons w ws ih =>
    intro seen
    by_cases hw : w ∈ seen
    · rw [show dedupFirstAux seen (w :: ws) = dedupFirstAux seen ws from by
        simp [dedupFirstAux, hw]]
      refine (ih seen).imp_of_mem ?_
      intro a b ha hb hab
      have hane : w ≠ a := fun h =>
        ((mem_dedupFirstAux ws seen a).mp ha).2 (h ▸ hw)
      have hbne : w ≠ b := fun h =>
        ((mem_dedupFirstAux ws seen b).mp hb).2 (h ▸ hw)
      rw [firstIdx_cons_ne hane, firstIdx_cons_ne hbne]
      omega
    · rw [show dedupFirstAux seen (w :: ws) = w :: dedupFirstAux (w :: seen) ws from by
        simp [dedupFirstAux, hw]]
      refine List.Pairwise.cons ?_ ?_
      · intro b hb
        have hbne : w ≠ b := fun h =>
          ((mem_dedupFirstAux ws (w :: seen) b).mp hb).2 (h ▸ List.mem_cons_self _ _)
        rw [firstIdx_cons_ne hbne]
        simp [firstIdx]
      · refine (ih (w :: seen)).imp_of_mem ?_
        intro a b ha hb hab
        have hane : w ≠ a := fun h =>
          ((mem_dedupFirstAux ws (w :: seen) a).mp ha).2 (h ▸ List.mem_cons_self _ _)
        have hbne : w ≠ b := fun h =>
          ((mem_dedupFirstAux ws (w :: seen) b).mp hb).2 (h ▸ List.mem_cons_self _ _)
        rw [firstIdx_cons_ne hane, firstIdx_cons_ne hbne]
        omega

theorem mem_insertDesc (cnt : Str → Nat) (w : Str) :
    ∀ (l : List Str) (x : Str), x ∈ insertDesc cnt w l ↔ x = w ∨ x ∈ l := by
  intro l
  induction l with
  | nil => intro x; simp [insertDesc]
  | cons v vs ih =>
    intro x
    by_cases h : cnt w ≤ cnt v
    · simp only [insertDesc, if_pos h, List.mem_cons, ih]
      tauto
    · simp only [insertDesc, if_neg h, List.mem_cons]

theorem insertDesc_pairwise {cnt : Str → Nat} {S : Str → Str → Prop} {w : Str} :
    ∀ {l : List Str},
      l.Pairwise (fun a b => cnt b < cnt a ∨ (cnt a = cnt b ∧ S a b)) →
      (∀ v ∈ l, S v w) →
      (insertDesc cnt w l).Pairwise (fun a b => cnt b < cnt a ∨ (cnt a = cnt b ∧ S a b)) := by
  intro l
  induction l with
  | nil => intro _ _; simp [insertDesc]
  | cons v vs ih =>
    intro hp hS
    obtain ⟨hp1, hp2⟩ := List.pairwise_cons.mp hp
    by_cases h : cnt w ≤ cnt v
    · rw [show insertDesc cnt w (v :: vs) = v :: insertDesc cnt w vs from by
        simp [insertDesc, h]]
      refine List.Pairwise.cons ?_ ?_
      · intro x hx
        rcases (mem_insertDesc cnt w vs x).mp hx with rfl | hx
        · rcases Nat.lt_or_ge (cnt x) (cnt v) with hlt | hge
          · exact Or.inl hlt
          · exact Or.inr ⟨Nat.le_antisymm hge h, hS v (List.mem_cons_self _ _)⟩
        · exact hp1 x hx
      · exact ih hp2 fun u hu => hS u (List.mem_cons_of_mem _ hu)
    · rw [show insertDesc cnt w (v :: vs) = w :: v :: vs from by
        simp [insertDesc, h]]
      refine List.Pairwise.cons ?_ hp
      intro x hx
      rcases List.mem_cons.mp hx with rfl | hx
      · exact Or.inl (Nat.lt_of_not_le h)
      · rcases hp1 x hx with hlt | ⟨heq, _⟩
        · exact Or.inl (Nat.lt_trans hlt (Nat.lt_of_not_le h))
        · exact Or.inl (heq ▸ Nat.lt_of_not_le h)

theorem foldl_insertDesc_pairwise {cnt : Str → Nat} {S : Str → Str → Prop} :
    ∀ (l acc : List Str),
      acc.Pairwise (fun a b => cnt b < cnt a ∨ (cnt a = cnt b ∧ S a b)) →
      (∀ v ∈ acc, ∀ u ∈ l, S v u) →
      l.Pairwise S →
      (l.foldl (fun acc w => insertDesc cnt w acc) acc).Pairwise
        (fun a b => cnt b < cnt a ∨ (cnt a = cnt b ∧ S a b)) := by
  intro l
  induction l with
  | nil => intro acc hacc _ _; exact hacc
  | cons u l ih =>
    intro acc hacc hS hl
    obtain ⟨hl1, hl2⟩ := List.pairwise_cons.mp hl
    refine ih (insertDesc cnt u acc) ?_ ?_ hl2
    · exact insertDesc_pairwise hacc fun v hv => hS v hv u (List.mem_cons_self _ _)
    · intro v hv x hx
      rcases (mem_insertDesc cnt u acc v).mp hv with rfl | hv
      · exact hl1 x hx
      · exact hS v hv x (List.mem_cons_of_mem _ hx)

theorem mem_foldl_insertDesc (cnt : Str → Nat) :
    ∀ (l acc : List Str) (x : Str),
      x ∈ l.foldl (fun acc w => insertDesc cnt w acc) acc ↔ x ∈ acc ∨ x ∈ l := by
  intro l
  induction l with
  | nil => intro acc x; simp
  | cons u l ih =>
    intro acc x
    show x ∈ l.foldl _ (insertDesc cnt u acc) ↔ _
    rw [ih, mem_insertDesc]
    simp only [List.mem_cons]
    tauto

theorem mem_sortDesc (cnt : Str → Nat) (l : List Str) (x : Str) :
    x ∈ sortDesc cnt l ↔ x ∈ l := by
  unfold sortDesc
  rw [mem_foldl_insertDesc]
  simp

theorem sortDesc_pairwise (t : Str) :
    (sortDesc (wordCount t) (dedupFirst (topicWords t))).Pairwise
      (fun a b => wordCount t b < wordCount t a ∨
        (wordCount t a = wordCount t b ∧
          firstIdx (topicWords t) a < firstIdx (topicWords t) b)) := by
  unfold sortDesc
  exact foldl_insertDesc_pairwise _ _ (by simp) (by simp)
    (dedupFirstAux_pairwise (topicWords t) [])

theorem length_insertDesc (cnt : Str → Nat) (w : Str) :
    ∀ l : List Str, (insertDesc cnt w l).length = l.length + 1 := by
  intro l
  induction l with
  | nil => rfl
  | cons v vs ih =>
    by_cases h : cnt w ≤ cnt v
    · rw [show insertDesc cnt w (v :: vs) = v :: insertDesc cnt w vs from by
        simp [insertDesc, h]]
      simp [ih]
    · rw [show insertDesc cnt w (v :: vs) = w :: v :: vs from by simp [insertDesc, h]]
      rfl

theorem length_foldl_insertDesc (cnt : Str → Nat) :
    ∀ (l acc : List Str),
      (l.foldl (fun acc w => insertDesc cnt w acc) acc).length = acc.length + l.length := by
  intro l
  induction l with
  | nil => intro acc; rfl
  | cons u l ih =>
    intro acc
    show (l.foldl _ (insertDesc cnt u acc)).length = _
    rw [ih (insertDesc cnt u acc), length_insertDesc]
    simp only [List.length_cons]
    omega

theorem length_sortDesc (cnt : Str → Nat) (l : List Str) :
    (sortDesc cnt l).length = l.length := by
  unfold sortDesc
  rw [length_foldl_insertDesc]
  simp

/-- C1: `extract_key_topics text n` returns at most `n` words; every returned
word is a word of `preprocess_text text` that is not a stop word and has
length greater than 3; the returned list is ordered by decreasing count with
ties broken by first occurrence in the filtered word list; every filtered
word that is not returned has a smaller count than each returned word, or an
equal count and a later first occurrence; the returned words are distinct;
and the result has length exactly `min n k`, where `k` is the number of
distinct filtered words, so together with distinctness, soundness and the
domination conjunct the result is exactly the `min n k` most frequent
words. -/
theorem extract_key_topics_correct (t : Str) (n : Nat) :
    (extract_key_topics t n).length ≤ n ∧
    (∀ w ∈ extract_key_topics t n,
        w ∈ pySplitWs (preprocess_text t) ∧ w ∉ stop_words ∧ 3 < w.length) ∧
    (extract_key_topics t n).Pairwise (fun a b =>
        wordCount t b < wordCount t a ∨
          (wordCount t a = wordCount t b ∧
            firstIdx (topicWords t) a < firstIdx (topicWords t) b)) ∧
    (∀ v ∈ topicWords t, v ∉ extract_key_topics t n →
        ∀ w ∈ extract_key_topics t n,
          wordCount t v < wordCount t w ∨
            (wordCount t v = wordCount t w ∧
              firstIdx (topicWords t) w < firstIdx (topicWords t) v)) ∧
    (extract_key_topics t n).Nodup ∧
    (extract_key_topics t n).length = min n (dedupFirst (topicWords t)).length := by
  have hpair := sortDesc_pairwise t
  refine ⟨List.length_take_le n _, ?_, ?_, ?_, ?_, ?_⟩
  · intro w hw
    have hw1 : w ∈ sortDesc (wordCount t) (dedupFirst (topicWords t)) :=
      List.mem_of_mem_take hw
    have hw2 : w ∈ dedupFirst (topicWords t) := (mem_sortDesc _ _ _).mp hw1
    have hw3 : w ∈ topicWords t := ((mem_dedupFirstAux _ _ _).mp hw2).1
    obtain ⟨hmem, hcond⟩ := List.mem_filter.mp hw3
    simp only [Bool.and_eq_true, decide_eq_true_eq] at hcond
    exact ⟨hmem, hcond.1, hcond.2⟩
  · exact hpair.sublist (List.take_sublist n _)
  · intro v hv hnot w hw
    have hvD : v ∈ dedupFirst (topicWords t) :=
      (mem_dedupFirstAux _ _ _).mpr ⟨hv, List.not_mem_nil v⟩
    have hvS : v ∈ sortDesc (wordCount t) (dedupFirst (topicWords t)) :=
      (mem_sortDesc _ _ _).mpr hvD
    have hsplit := List.take_append_drop n (sortDesc (wordCount t) (dedupFirst (topicWords t)))
    have hvdrop : v ∈ (sortDesc (wordCount t) (dedupFirst (topicWords t))).drop n := by
      rcases List.mem_append.mp (show v ∈ _ ++ _ by rw [hsplit]; exact hvS) with h | h
      · exact absurd h hnot
      · exact h
    have hpair' := hpair
    rw [← hsplit] at hpair'
    rcases (List.pairwise_append.mp hpair').2.2 w hw v hvdrop with h | ⟨heq, hidx⟩
    · exact Or.inl h
    · exact Or.inr ⟨heq.symm, hidx⟩
  · refine List.Pairwise.imp ?_ (hpair.sublist (List.take_sublist n _))
    intro a b hab heq
    subst heq
    rcases hab with h | ⟨_, h⟩ <;> omega
  · show (List.take n _).length = _
    rw [List.length_take, length_sortDesc]

theorem extract_key_topics_correct_witness :
    "banana".data ∈ pySplitWs (preprocess_text ("apple apple banana banana banana".data)) ∧
      "banana".data ∉ stop_words ∧ 3 < ("banana".data).length :=
  (extract_key_topics_correct ("apple apple banana banana banana".data) 2).2.1
    ("banana".data) (by decide)

/-- C2: run against a sequence of status responses, the polling loop of
`transcribe_audio` returns the `text` field of the first response whose
status is `completed`; it returns `None` at the first `failed` response
when no earlier response is terminal; and it does not return while every
response seen has a status other than `completed` and `failed`. -/
theorem transcribe_audio_polling :
    (∀ (rs : List TranscriptResponse) (i : Nat) (hi : i < rs.length),
        rs[i].status = "completed".data →
        (∀ r ∈ rs.take i, r.status ≠ "completed".data ∧ r.status ≠ "failed".data) →
        pollStatuses rs = some (some rs[i].text)) ∧
    (∀ (rs : List TranscriptResponse) (i : Nat) (hi : i < rs.length),
        rs[i].status = "failed".data →
        (∀ r ∈ rs.take i, r.status ≠ "completed".data ∧ r.status ≠ "failed".data) →
        pollStatuses rs = some none) ∧
    (∀ rs : List TranscriptResponse,
        (∀ r ∈ rs, r.status ≠ "completed".data ∧ r.status ≠ "failed".data) →
        pollStatuses rs = none) := by
  refine ⟨?_, ?_, ?_⟩
  · intro rs
    induction rs with
    | nil => intro i hi; simp at hi
    | cons r rs ih =>
      intro i hi hc hb
      cases i with
      | zero =>
        simp only [List.getElem_cons_zero] at hc ⊢
        simp [pollStatuses, hc]
      | succ j =>
        have hr := hb r (by rw [List.take_succ_cons]; exact List.mem_cons_self _ _)
        show pollStatuses (r :: rs) = _
        simp only [pollStatuses]
        rw [if_neg hr.1, if_neg hr.2]
        simp only [List.getElem_cons_succ]
        exact ih j (by simpa using hi) (by simpa using hc)
          (fun x hx => hb x (by rw [List.take_succ_cons]; exact List.mem_cons_of_mem _ hx))
  · intro rs
    induction rs with
    | nil => intro i hi; simp at hi
    | cons r rs ih =>
      intro i hi hc hb
      cases i with
      | zero =>
        simp only [List.getElem_cons_zero] at hc
        have hne : r.status ≠ "completed".data := by rw [hc]; decide
        simp [pollStatuses, hne, hc]
      | succ j =>
        have hr := hb r (by rw [List.take_succ_cons]; exact List.mem_cons_self _ _)
        show pollStatuses (r :: rs) = _
        simp only [pollStatuses]
        rw [if_neg hr.1, if_neg hr.2]
        exact ih j (by simpa using hi) (by simpa using hc)
          (fun x hx => hb x (by rw [List.take_succ_cons]; exact List.mem_cons_of_mem _ hx))
  · intro rs
    induction rs with
    | nil => intro _; rfl
    | cons r rs ih =>
      intro hb
      have hr := hb r (List.mem_cons_self _ _)
      show pollStatuses (r :: rs) = _
      simp only [pollStatuses]
      rw [if_neg hr.1, if_neg hr.2]
      exact ih fun x hx => hb x (List.mem_cons_of_mem _ hx)

theorem transcribe_audio_polling_witness :
    pollStatuses
        [{ status := "queued".data, text := [] },
          { status := "completed".data, text := "done".data }] = some (some ("done".data)) ∧
    pollStatuses
        [{ status := "queued".data, text := [] },
          { status := "failed".data, text := [] }] = some none ∧
    pollStatuses [{ status := "queued".data, text := [] }] = none := by
  refine ⟨?_, ?_, ?_⟩
  · exact transcribe_audio_polling.1 _ 1 (by decide) (by decide) (by decide)
  · exact transcribe_audio_polling.2.1 _ 1 (by decide) (by decide) (by decide)
  · exact transcribe_audio_polling.2.2 _ (by decide)

/-! ### Structure of the generated question list -/

theorem padAux_append (kt : List Str) :
    ∀ (rev : List Str) (qs : List Question),
      ∃ ex, padAux kt qs rev = qs ++ ex ∧ ∀ q ∈ ex, ∃ s ∈ rev, q = mkSegQ kt s := by
  intro rev
  induction rev with
  | nil => intro qs; exact ⟨[], by simp [padAux], by simp⟩
  | cons s rest ih =>
    intro qs
    by_cases h : qs.length < 3
    · obtain ⟨ex, hex, hmem⟩ := ih (qs ++ [mkSegQ kt s])
      refine ⟨mkSegQ kt s :: ex, ?_, ?_⟩
      · rw [show padAux kt qs (s :: rest) = padAux kt (qs ++ [mkSegQ kt s]) rest from by
          simp [padAux, h]]
        rw [hex, List.append_assoc]
        rfl
      · intro q hq
        rcases List.mem_cons.mp hq with rfl | hq
        · exact ⟨s, List.mem_cons_self _ _, rfl⟩
        · obtain ⟨u, hu, hqu⟩ := hmem q hq
          exact ⟨u, List.mem_cons_of_mem _ hu, hqu⟩
    · exact ⟨[], by simp [padAux, h], by simp⟩

theorem padAux_length (kt : List Str) :
    ∀ (rev : List Str) (qs : List Question),
      min 3 (qs.length + rev.length) ≤ (padAux kt qs rev).length := by
  intro rev
  induction rev with
  | nil => intro qs; simp [padAux]
  | cons s rest ih =>
    intro qs
    by_cases h : qs.length < 3
    · rw [show padAux kt qs (s :: rest) = padAux kt (qs ++ [mkSegQ kt s]) rest from by
        simp [padAux, h]]
      have := ih (qs ++ [mkSegQ kt s])
      simp only [List.length_append, List.length_cons, List.length_nil] at this
      simp only [List.length_cons]
      omega
    · rw [show padAux kt qs (s :: rest) = qs from by simp [padAux, h]]
      simp only [List.length_cons]
      omega

theorem mem_buildQuestions {t : Str} {q : Question} (hq : q ∈ buildQuestions t) :
    q ∈ mainQs (extract_key_topics t 3) ∨ q ∈ tfQs (sentencesOf t) ∨
      q ∈ detailQs (sentencesOf t) (extract_key_topics t 3) ∨
      q ∈ summaryQs (paragraphsOf t) ∨
      ∃ s ∈ sentencesOf t, q = mkSegQ (extract_key_topics t 3) s := by
  obtain ⟨ex, hex, hmem⟩ := padAux_append (extract_key_topics t 3) (sentencesOf t).reverse
    (mainQs (extract_key_topics t 3) ++ tfQs (sentencesOf t) ++
      detailQs (sentencesOf t) (extract_key_topics t 3) ++ summaryQs (paragraphsOf t))
  simp only [buildQuestions] at hq
  rw [hex] at hq
  rcases List.mem_append.mp hq with hq | hq
  · rcases List.mem_append.mp hq with hq | hq
    · rcases List.mem_append.mp hq with hq | hq
      · rcases List.mem_append.mp hq with hq | hq
        · exact Or.inl hq
        · exact Or.inr (Or.inl hq)
      · exact Or.inr (Or.inr (Or.inl hq))
    · exact Or.inr (Or.inr (Or.inr (Or.inl hq)))
  · obtain ⟨s, hs, hqs⟩ := hmem q hq
    exact Or.inr (Or.inr (Or.inr (Or.inr ⟨s, List.mem_reverse.mp hs, hqs⟩)))

theorem mem_buildQuestions_of_mem_qs {t : Str} {q : Question}
    (h : q ∈ mainQs (extract_key_topics t 3) ++ tfQs (sentencesOf t) ++
      detailQs (sentencesOf t) (extract_key_topics t 3) ++ summaryQs (paragraphsOf t)) :
    q ∈ buildQuestions t := by
  obtain ⟨ex, hex, _⟩ := padAux_append (extract_key_topics t 3) (sentencesOf t).reverse
    (mainQs (extract_key_topics t 3) ++ tfQs (sentencesOf t) ++
      detailQs (sentencesOf t) (extract_key_topics t 3) ++ summaryQs (paragraphsOf t))
  simp only [buildQuestions]
  rw [hex]
  exact List.mem_append_left _ h

theorem eq_of_mem_mainQs {kt : List Str} {q : Question} (h : q ∈ mainQs kt) :
    ∃ m rest, kt = m :: rest ∧ q = mkMainQ kt m := by
  cases kt with
  | nil => simp [mainQs] at h
  | cons m rest =>
    simp only [mainQs, List.mem_singleton] at h
    exact ⟨m, rest, rfl, h⟩

theorem eq_of_mem_tfQs {ss : List Str} {q : Question} (h : q ∈ tfQs ss) :
    ∃ s0 s1 rest, ss = s0 :: s1 :: rest ∧ q = mkTFQ s1 := by
  cases ss with
  | nil => simp [tfQs] at h
  | cons s0 tail =>
    cases tail with
    | nil => simp [tfQs] at h
    | cons s1 rest =>
      simp only [tfQs, List.mem_singleton] at h
      exact ⟨s0, s1, rest, rfl, h⟩

theorem eq_of_mem_summaryQs {ps : List Str} {q : Question} (h : q ∈ summaryQs ps) :
    ∃ p rest, ps = p :: rest ∧ q = mkSummaryQ p := by
  cases ps with
  | nil => simp [summaryQs] at h
  | cons p rest =>
    simp only [summaryQs, List.mem_singleton] at h
    exact ⟨p, rest, rfl, h⟩

theorem eq_of_mem_detailQs {ss kt : List Str} {q : Question} (h : q ∈ detailQs ss kt) :
    ∃ tp ∈ (kt.drop 1).take 2, ∃ r rs, relevantFor ss tp = r :: rs ∧ q = mkKeyPointQ tp r := by
  unfold detailQs at h
  rw [List.mem_flatten] at h
  obtain ⟨l, hl, hql⟩ := h
  rw [List.mem_map] at hl
  obtain ⟨tp, htp, rfl⟩ := hl
  refine ⟨tp, htp, ?_⟩
  unfold detailQFor at hql
  cases hrel : relevantFor ss tp with
  | nil => rw [hrel] at hql; simp at hql
  | cons r rs =>
    rw [hrel] at hql
    simp only [List.mem_singleton] at hql
    exact ⟨r, rs, rfl, hql⟩

theorem mkKeyPointQ_mem_detailQs {ss kt : List Str} {tp : Str}
    (htp : tp ∈ (kt.drop 1).take 2) {r : Str} {rs : List Str}
    (hrel : relevantFor ss tp = r :: rs) : mkKeyPointQ tp r ∈ detailQs ss kt := by
  unfold detailQs
  rw [List.mem_flatten]
  refine ⟨detailQFor ss tp, List.mem_map_of_mem _ htp, ?_⟩
  unfold detailQFor
  rw [hrel]
  simp

/-! ### The five question templates have pairwise distinct fixed prefixes -/

theorem append_ne_of_getElem (a b x y : Str) (i : Nat) (ha : i < a.length)
    (hb : i < b.length) (h : a[i] ≠ b[i]) : a ++ x ≠ b ++ y := by
  intro he
  apply h
  have h1 : (a ++ x)[i]? = a[i]? := List.getElem?_append_left ha
  have h2 : (b ++ y)[i]? = b[i]? := List.getElem?_append_left hb
  rw [he, h2] at h1
  rw [List.getElem?_eq_getElem ha, List.getElem?_eq_getElem hb] at h1
  exact (Option.some.injEq _ _ ▸ h1).symm

theorem mainQText_ne_keyQText (m tp : Str) : mainQText m ≠ keyQText tp := by
  unfold mainQText keyQText
  simp only [List.append_assoc]
  exact append_ne_of_getElem _ _ _ _ 5 (by decide) (by decide) (by decide)

theorem tfQText_ne_keyQText (s tp : Str) : tfQText s ≠ keyQText tp := by
  unfold tfQText keyQText
  simp only [List.append_assoc]
  exact append_ne_of_getElem _ _ _ _ 0 (by decide) (by decide) (by decide)

theorem summaryQText_ne_keyQText (tp : Str) : summaryQText ≠ keyQText tp := by
  have h := append_ne_of_getElem
    ("Which of the following best summarizes a key takeaway from the discussion?".data)
    ("What key point is made about ".data) [] (tp ++ ['?']) 2
    (by decide) (by decide) (by decide)
  unfold summaryQText keyQText
  intro he
  exact h (by rw [List.append_nil, he, List.append_assoc])

theorem segQText_ne_keyQText (s tp : Str) : segQText s ≠ keyQText tp := by
  unfold segQText keyQText
  simp only [List.append_assoc]
  exact append_ne_of_getElem _ _ _ _ 5 (by decide) (by decide) (by decide)

theorem keyQText_inj {tp tp' : Str} (h : keyQText tp = keyQText tp') : tp = tp' := by
  unfold keyQText at h
  have h1 := List.append_cancel_right h
  exact List.append_cancel_left h1

/-- C3: every question generated from a transcript is a record with exactly
the four fields of `Question`; its `type` is `short_answer`, `true_false` or
`multiple_choice`; and its `question` text is one of the five fixed
templates, instantiated with a key topic, the 100-character prefix of a
sentence, or the 50-character prefix of a sentence of the transcript. -/
theorem generate_questions_shape (t : Str) :
    ∀ q ∈ generate_questions_from_text t,
      (q.type = "short_answer".data ∨ q.type = "true_false".data ∨
        q.type = "multiple_choice".data) ∧
      ((∃ m ∈ extract_key_topics t 3, q.question = mainQText m) ∨
        (∃ s ∈ sentencesOf t, q.question = tfQText s) ∨
        (∃ tp ∈ extract_key_topics t 3, q.question = keyQText tp) ∨
        q.question = summaryQText ∨
        (∃ s ∈ sentencesOf t, q.question = segQText s)) := by
  intro q hq
  by_cases ht : t.isEmpty
  · simp only [generate_questions_from_text, if_pos ht] at hq
    exact absurd hq (List.not_mem_nil q)
  · simp only [generate_questions_from_text, if_neg ht] at hq
    rcases mem_buildQuestions hq with h | h | h | h | ⟨s, hs, rfl⟩
    · obtain ⟨m, rest, hkt, rfl⟩ := eq_of_mem_mainQs h
      refine ⟨Or.inl rfl, Or.inl ⟨m, ?_, rfl⟩⟩
      rw [hkt]
      exact List.mem_cons_self _ _
    · obtain ⟨s0, s1, rest, hss, rfl⟩ := eq_of_mem_tfQs h
      refine ⟨Or.inr (Or.inl rfl), Or.inr (Or.inl ⟨s1, ?_, rfl⟩)⟩
      rw [hss]
      exact List.mem_cons_of_mem _ (List.mem_cons_self _ _)
    · obtain ⟨tp, htp, r, rs, hrel, rfl⟩ := eq_of_mem_detailQs h
      refine ⟨Or.inl rfl, Or.inr (Or.inr (Or.inl ⟨tp, ?_, rfl⟩))⟩
      exact List.mem_of_mem_drop (List.mem_of_mem_take htp)
    · obtain ⟨p, rest, hps, rfl⟩ := eq_of_mem_summaryQs h
      exact ⟨Or.inr (Or.inr rfl), Or.inr (Or.inr (Or.inr (Or.inl rfl)))⟩
    · exact ⟨Or.inl rfl, Or.inr (Or.inr (Or.inr (Or.inr ⟨s, hs, rfl⟩)))⟩

theorem generate_questions_shape_witness :
    ((mkMainQ (extract_key_topics ("alpha alpha beta gamma words here now".data) 3)
        ("alpha".data)).type = "short_answer".data ∨
      (mkMainQ (extract_key_topics ("alpha alpha beta gamma words here now".data) 3)
        ("alpha".data)).type = "true_false".data ∨
      (mkMainQ (extract_key_topics ("alpha alpha beta gamma words here now".data) 3)
        ("alpha".data)).type = "multiple_choice".data) :=
  (generate_questions_shape ("alpha alpha beta gamma words here now".data)
    (mkMainQ (extract_key_topics ("alpha alpha beta gamma words here now".data) 3)
      ("alpha".data)) (by decide)).1

/-- C9: a falsy transcript (`None` or the empty string) yields the empty
question list. -/
theorem generate_questions_falsy :
    generate_questions_from_any none = [] ∧ generate_questions_from_text [] = [] :=
  ⟨rfl, rfl⟩

/-- C10: `generate_questions_from_text` is a deterministic function of the
transcript: equal inputs give equal question lists. -/
theorem generate_questions_deterministic (t₁ t₂ : Str) (h : t₁ = t₂) :
    generate_questions_from_text t₁ = generate_questions_from_text t₂ := by
  rw [h]

theorem generate_questions_deterministic_witness :
    generate_questions_from_text ("alpha alpha beta gamma words here now".data) =
      generate_questions_from_text ("alpha alpha beta gamma words here now".data) :=
  generate_questions_deterministic _ _ rfl

/-- C4: on a non-empty transcript whose key-topic list is `t0 :: rest`, the
first generated question is the `short_answer` main-topic question about
`t0`, whose answer joins the remaining topics (at most two) with ` and `. -/
theorem generate_questions_head (t : Str) (ht : t ≠ []) (t0 : Str) (rest : List Str)
    (hkt : extract_key_topics t 3 = t0 :: rest) :
    (generate_questions_from_text t).head? =
      some { question := mainQText t0
             type := "short_answer".data
             answer := "The main topic discusses ".data ++ t0 ++
               " in the context of ".data ++ joinAnd (rest.take 2)
             context := "main topic".data } := by
  have hne : t.isEmpty = false := by simpa using ht
  obtain ⟨ex, hex, _⟩ := padAux_append (extract_key_topics t 3) (sentencesOf t).reverse
    (mainQs (extract_key_topics t 3) ++ tfQs (sentencesOf t) ++
      detailQs (sentencesOf t) (extract_key_topics t 3) ++ summaryQs (paragraphsOf t))
  simp only [generate_questions_from_text, hne, Bool.false_eq_true, if_false, buildQuestions]
  rw [hex]
  rw [show mainQs (extract_key_topics t 3) = [mkMainQ (t0 :: rest) t0] from by
    rw [hkt]; rfl]
  rw [show mkMainQ (t0 :: rest) t0 =
    { question := mainQText t0
      type := "short_answer".data
      answer := "The main topic discusses ".data ++ t0 ++
        " in the context of ".data ++ joinAnd (rest.take 2)
      context := "main topic".data } from rfl]
  rfl

theorem generate_questions_head_witness :
    (generate_questions_from_text ("alpha alpha beta gamma words here now".data)).head? =
      some { question := mainQText ("alpha".data)
             type := "short_answer".data
             answer := "The main topic discusses ".data ++ "alpha".data ++
               " in the context of ".data ++ joinAnd ([ "beta".data, "gamma".data].take 2)
             context := "main topic".data } :=
  generate_questions_head ("alpha alpha beta gamma words here now".data) (by decide)
    ("alpha".data) [ "beta".data, "gamma".data] (by decide)

/-- C5: on a non-empty transcript with at least two sentences (pieces of the
transcript split on `.` whose trimmed length exceeds 20), the generated list
contains a `true_false` question embedding the 100-character prefix of the
second sentence, with answer exactly `True`. -/
theorem generate_questions_truefalse (t : Str) (ht : t ≠ []) (s0 s1 : Str)
    (rest : List Str) (hss : sentencesOf t = s0 :: s1 :: rest) :
    ∃ q ∈ generate_questions_from_text t,
      q.type = "true_false".data ∧ q.question = tfQText s1 ∧ q.answer = "True".data := by
  have hne : t.isEmpty = false := by simpa using ht
  refine ⟨mkTFQ s1, ?_, rfl, rfl, rfl⟩
  simp only [generate_questions_from_text, hne, Bool.false_eq_true, if_false]
  apply mem_buildQuestions_of_mem_qs
  apply List.mem_append_left
  apply List.mem_append_left
  apply List.mem_append_right
  rw [hss]
  exact List.mem_cons_self _ _

theorem generate_questions_truefalse_witness :
    ∃ q ∈ generate_questions_from_text
        ("alpha beta words occur here today. beta words occur again right here today.".data),
      q.type = "true_false".data ∧
        q.question = tfQText ("beta words occur again right here today".data) ∧
        q.answer = "True".data :=
  generate_questions_truefalse
    ("alpha beta words occur here today. beta words occur again right here today.".data)
    (by decide) ("alpha beta words occur here today".data)
    ("beta words occur again right here today".data) [] (by decide)

/-- C8: when the sentence list of the transcript has at least three
elements, `generate_questions_from_text` returns at least three
questions. -/
theorem generate_questions_at_least_three (t : Str)
    (hss : 3 ≤ (sentencesOf t).length) :
    3 ≤ (generate_questions_from_text t).length := by
  by_cases ht : t.isEmpty
  · have h0 : t = [] := by simpa using ht
    subst h0
    exact absurd hss (by decide)
  · simp only [generate_questions_from_text, ht, Bool.false_eq_true, if_false, buildQuestions]
    have h := padAux_length (extract_key_topics t 3) (sentencesOf t).reverse
      (mainQs (extract_key_topics t 3) ++ tfQs (sentencesOf t) ++
        detailQs (sentencesOf t) (extract_key_topics t 3) ++ summaryQs (paragraphsOf t))
    rw [List.length_reverse] at h
    omega

theorem generate_questions_at_least_three_witness :
    3 ≤ (generate_questions_from_text
      ("alpha beta words occur once. beta words occur here twice. gamma words occur a third time.".data)).length :=
  generate_questions_at_least_three
    ("alpha beta words occur once. beta words occur here twice. gamma words occur a third time.".data)
    (by decide)

/-- C6: for a non-empty transcript and a topic `tp` among the second and
third key topics (`key_topics[1:3]`), the generated list contains the
`short_answer` question `What key point is made about tp?` exactly when `tp`
occurs as a substring of the lowercasing of some sentence; and every such
question answers with the 100-character prefix of the first matching
sentence followed by `...`. -/
theorem generate_questions_detail (t : Str) (ht : t ≠ []) (tp : Str)
    (htp : tp ∈ ((extract_key_topics t 3).drop 1).take 2) :
    ((∃ q ∈ generate_questions_from_text t,
        q.question = keyQText tp ∧ q.type = "short_answer".data) ↔
      ∃ s ∈ sentencesOf t, isSubstr tp (pyLower s) = true) ∧
    (∀ q ∈ generate_questions_from_text t, q.question = keyQText tp →
      ∃ r rs, relevantFor (sentencesOf t) tp = r :: rs ∧
        q.answer = r.take 100 ++ "...".data) := by
  have hne : t.isEmpty = false := by simpa using ht
  constructor
  · constructor
    · rintro ⟨q, hq, hql, _⟩
      simp only [generate_questions_from_text, hne, Bool.false_eq_true, if_false] at hq
      rcases mem_buildQuestions hq with h | h | h | h | ⟨s, hs, rfl⟩
      · obtain ⟨m, rest, hkt, rfl⟩ := eq_of_mem_mainQs h
        exact absurd hql (mainQText_ne_keyQText m tp)
      · obtain ⟨s0, s1, rest, hss, rfl⟩ := eq_of_mem_tfQs h
        exact absurd hql (tfQText_ne_keyQText s1 tp)
      · obtain ⟨tp', htp', r, rs, hrel, rfl⟩ := eq_of_mem_detailQs h
        have heq : tp' = tp := keyQText_inj hql
        subst heq
        have hrmem : r ∈ relevantFor (sentencesOf t) tp' := by
          rw [hrel]; exact List.mem_cons_self _ _
        obtain ⟨hrs, hsub⟩ := List.mem_filter.mp hrmem
        exact ⟨r, hrs, hsub⟩
      · obtain ⟨p, rest, hps, rfl⟩ := eq_of_mem_summaryQs h
        exact absurd hql (summaryQText_ne_keyQText tp)
      · exact absurd hql (segQText_ne_keyQText s tp)
    · rintro ⟨s, hs, hsub⟩
      have hsmem : s ∈ relevantFor (sentencesOf t) tp := List.mem_filter.mpr ⟨hs, hsub⟩
      cases hrel : relevantFor (sentencesOf t) tp with
      | nil => rw [hrel] at hsmem; exact absurd hsmem (List.not_mem_nil s)
      | cons r rs =>
        refine ⟨mkKeyPointQ tp r, ?_, rfl, rfl⟩
        simp only [generate_questions_from_text, hne, Bool.false_eq_true, if_false]
        apply mem_buildQuestions_of_mem_qs
        apply List.mem_append_left
        apply List.mem_append_right
        exact mkKeyPointQ_mem_detailQs htp hrel
  · intro q hq hql
    simp only [generate_questions_from_text, hne, Bool.false_eq_true, if_false] at hq
    rcases mem_buildQuestions hq with h | h | h | h | ⟨s, hs, rfl⟩
    · obtain ⟨m, rest, hkt, rfl⟩ := eq_of_mem_mainQs h
      exact absurd hql (mainQText_ne_keyQText m tp)
    · obtain ⟨s0, s1, rest, hss, rfl⟩ := eq_of_mem_tfQs h
      exact absurd hql (tfQText_ne_keyQText s1 tp)
    · obtain ⟨tp', htp', r, rs, hrel, rfl⟩ := eq_of_mem_detailQs h
      have heq : tp' = tp := keyQText_inj hql
      subst heq
      exact ⟨r, rs, hrel, rfl⟩
    · obtain ⟨p, rest, hps, rfl⟩ := eq_of_mem_summaryQs h
      exact absurd hql (summaryQText_ne_keyQText tp)
    · exact absurd hql (segQText_ne_keyQText s tp)

theorem generate_questions_detail_witness :
    (∃ q ∈ generate_questions_from_text
          ("alpha beta words occur here today. beta words occur again right here today.".data),
        q.question = keyQText ("words".data) ∧ q.type = "short_answer".data) ↔
      ∃ s ∈ sentencesOf
          ("alpha beta words occur here today. beta words occur again right here today.".data),
        isSubstr ("words".data) (pyLower s) = true :=
  (generate_questions_detail
    ("alpha beta words occur here today. beta words occur again right here today.".data)
    (by decide) ("words".data) (by decide)).1

/-! ### `isSubstr` is contiguous-substring occurrence, as Python `in` -/

theorem headMatch_iff (n : Str) : ∀ h : Str, headMatch n h = true ↔ ∃ post, h = n ++ post := by
  induction n with
  | nil => intro h; simp [headMatch]
  | cons c cs ih =>
    intro h
    cases h with
    | nil => simp [headMatch]
    | cons d ds =>
      simp only [headMatch, Bool.and_eq_true, beq_iff_eq]
      rw [ih ds]
      constructor
      · rintro ⟨rfl, post, rfl⟩
        exact ⟨post, rfl⟩
      · rintro ⟨post, hpost⟩
        rw [List.cons_append] at hpost
        injection hpost with h1 h2
        exact ⟨h1.symm, post, h2⟩

theorem isSubstr_iff (n : Str) : ∀ h : Str, isSubstr n h = true ↔ ∃ pre post, h = pre ++ n ++ post := by
  intro h
  induction h with
  | nil =>
    simp only [isSubstr, List.isEmpty_iff]
    constructor
    · rintro rfl
      exact ⟨[], [], rfl⟩
    · rintro ⟨pre, post, hp⟩
      rcases List.append_eq_nil.mp hp.symm with ⟨h1, -⟩
      exact (List.append_eq_nil.mp h1).2
  | cons d ds ih =>
    simp only [isSubstr, Bool.or_eq_true]
    rw [headMatch_iff n (d :: ds), ih]
    constructor
    · rintro (⟨post, hpost⟩ | ⟨pre, post, rfl⟩)
      · exact ⟨[], post, by simpa using hpost⟩
      · exact ⟨d :: pre, post, rfl⟩
    · rintro ⟨pre, post, hp⟩
      cases pre with
      | nil => exact Or.inl ⟨post, by simpa using hp⟩
      | cons e pre' =>
        rw [List.cons_append, List.cons_append] at hp
        injection hp with h1 h2
        exact Or.inr ⟨pre', post, h2⟩

theorem preprocess_text_correct_witness :
    pySplitWs (preprocess_text ("  Hello,,  World!! ".data)) =
      pySplitWs (removeSpecial (pyLower ("  Hello,,  World!! ".data))) ∧
    preprocess_text (preprocess_text ("  Hello,,  World!! ".data)) =
      preprocess_text ("  Hello,,  World!! ".data) :=
  (preprocess_text_correct ("  Hello,,  World!! ".data)).2.2.2.2.2
